import Mathlib

/-!
Verification of the serial framing protocol in
`CristalLiq-serial/frame.h` / `frame.cpp`.

Bytes are modelled as natural numbers (the C code reads `unsigned char`
values, always in `0..255`). Character codes used below:
`60 = '<'`, `62 = '>'`, `92 = backslash`, `0 = NUL`.

Buffers written at a cursor (the receive buffer `receivedChars`) are
modelled as total maps `Nat → Nat` over cell indices, so that writes the
C code performs past the end of the real array are still observable in
the model. The send buffer is written strictly sequentially (its cursor
`i` only ever increments, each increment paired with exactly one store),
so `sendFrame` is modelled as the list of bytes stored at cells
`0, 1, 2, ...` of `sendChars`.
-/

/-- MAX_STRING from frame.h. -/
def MAX_STRING : Nat := 80

/-- MAX_PROTOCOL_MESSAGE from frame.h: `MAX_STRING + 4 = 84`.
The buffers `receivedChars` and `sendChars` both have
`MAX_PROTOCOL_MESSAGE + 1 = 85` cells, valid indices `0..84`. -/
def MAX_PROTOCOL_MESSAGE : Nat := MAX_STRING + 4

/-- The enum machineState from frame.h. -/
inductive machineState where
  | START
  | RECEIVING
  | ESCAPE
  | RECEIVED
deriving DecidableEq, Repr

open machineState

/-- The mutable state of class SerialProtocol that the receive path
touches: the machine state `machState`, the static cursor `ndx` of
`receiveFrame` (a C `byte`, so arithmetic on it is modulo 256), and the
memory cells of `receivedChars` as a map from cell index to byte. -/
structure SerialProtocol where
  machState : machineState
  ndx : Nat
  receivedChars : Nat → Nat

/-- Store byte `v` at cell `i` of a buffer. -/
def bufWrite (buf : Nat → Nat) (i v : Nat) : Nat → Nat :=
  fun j => if j = i then v else buf j

/-- One iteration of the switch on `machState` inside
`SerialProtocol::receiveFrame` (frame.cpp lines 86-134), for one input
byte `rc`. `ndx++` on the C `byte` cursor is `(ndx + 1) % 256`. The
RECEIVED branch of the switch is the do-nothing branch the source marks
unreachable. -/
def processByte (s : SerialProtocol) (rc : Nat) : SerialProtocol :=
  match s.machState with
  | START =>
      if rc = 60 then { s with ndx := 0, machState := RECEIVING }
      else { s with machState := START }
  | RECEIVING =>
      if rc = 60 then { s with ndx := 0, machState := RECEIVING }
      else if rc = 62 then
        { machState := RECEIVED,
          receivedChars := bufWrite s.receivedChars s.ndx 0,
          ndx := 0 }
      else if rc = 92 then { s with machState := ESCAPE }
      else
        { s with machState := RECEIVING,
                 receivedChars := bufWrite s.receivedChars s.ndx rc,
                 ndx := (s.ndx + 1) % 256 }
  | ESCAPE =>
      if rc = 62 ∨ rc = 92 ∨ rc = 60 then
        { s with machState := RECEIVING,
                 receivedChars := bufWrite s.receivedChars s.ndx rc,
                 ndx := (s.ndx + 1) % 256 }
      else { s with machState := RECEIVING }
  | RECEIVED => s

/-- SerialProtocol::receiveFrame (frame.cpp lines 80-136). The input is
the queue of bytes `Serial` has available; the loop consumes them one at
a time while the state is not RECEIVED. The result is the new state
together with the bytes left unconsumed in the serial queue. -/
def receiveFrame : SerialProtocol → List Nat → SerialProtocol × List Nat
  | s, [] => (s, [])
  | s, rc :: rest =>
      if s.machState = RECEIVED then (s, rc :: rest)
      else receiveFrame (processByte s rc) rest

/-- State of a freshly constructed SerialProtocol: the constructor sets
`machState` to START and the static cursor `ndx` starts at 0. The
initial buffer contents are irrelevant; the model takes them to be 0. -/
def initialProtocol : SerialProtocol :=
  { machState := START, ndx := 0, receivedChars := fun _ => 0 }

/-- Several invocations of `receiveFrame`, one per chunk of newly
available serial bytes; bytes a previous invocation left unconsumed stay
in the serial queue ahead of the next chunk. -/
def feedChunks : SerialProtocol → List Nat → List (List Nat) → SerialProtocol × List Nat
  | s, pending, [] => (s, pending)
  | s, pending, c :: cs =>
      let r := receiveFrame s (pending ++ c)
      feedChunks r.1 r.2 cs

/-- The first `n` cells of a buffer, as a list. -/
def readBuf (buf : Nat → Nat) (n : Nat) : List Nat :=
  (List.range n).map buf

/-- The while loop of `SerialProtocol::sendFrame` (frame.cpp lines
148-160). `out` is the list of bytes stored so far in `sendChars`
(cells `0..out.length - 1`, so the C cursor `i` equals `out.length`).
The loop runs while the message byte is not NUL and
`i < MAX_PROTOCOL_MESSAGE - 1`; a reserved byte is preceded by a stored
backslash, and if storing that backslash brings `i` to
`MAX_PROTOCOL_MESSAGE - 1` the `continue` re-checks the guard, which now
fails, ending the loop with the literal byte never stored. -/
def sendLoop : List Nat → List Nat → List Nat
  | out, [] => out
  | out, b :: rest =>
      if b = 0 then out
      else if MAX_PROTOCOL_MESSAGE - 1 ≤ out.length then out
      else if b = 60 ∨ b = 62 ∨ b = 92 then
        if (out ++ [92]).length = MAX_PROTOCOL_MESSAGE - 1 then out ++ [92]
        else sendLoop (out ++ [92, b]) rest
      else sendLoop (out ++ [b]) rest

/-- SerialProtocol::sendFrame (frame.cpp lines 145-164): the contents of
`sendChars` cells `0..` after the call, as a list. The opening marker is
stored first, the escaped message follows, then the closing marker and
the NUL sentinel. -/
def sendFrame (message : List Nat) : List Nat :=
  sendLoop [60] message ++ [62, 0]

/-- The bytes `Serial.write(sendChars)` actually transmits: `sendChars`
is a C string, so transmission stops at the first NUL byte. -/
def transmit (message : List Nat) : List Nat :=
  (sendFrame message).takeWhile (fun b => b ≠ 0)

/-- Modelled from the spec (wire-format section): the escaped form of a
payload, each occurrence of one of the three reserved bytes replaced by
a backslash followed by that same byte, every other byte unchanged.
Used as the specification side of the refinement claims about
`sendFrame`. -/
def escapeSpec : List Nat → List Nat
  | [] => []
  | b :: rest =>
      (if b = 60 ∨ b = 62 ∨ b = 92 then [92, b] else [b]) ++ escapeSpec rest

/-- The table win1252_to_ascii from frame.cpp lines 6-39, row by row. -/
def win1252_to_ascii : List Nat :=
  [0,1,2,3,4,5,6,7,8,9,10,11,12,13,14,15,
   16,17,18,19,20,21,22,23,24,25,26,27,28,29,30,31,
   32,33,34,35,36,37,38,39,40,41,42,43,44,45,46,47,
   48,49,50,51,52,53,54,55,56,57,58,59,60,61,62,63,
   64,65,66,67,68,69,70,71,72,73,74,75,76,77,78,79,
   80,81,82,83,84,85,86,87,88,89,90,91,92,93,94,95,
   96,97,98,99,100,101,102,103,104,105,106,107,108,109,110,111,
   112,113,114,115,116,117,118,119,120,121,122,123,124,125,126,127,
   128,129,130,131,132,133,134,135,136,137,138,139,140,141,142,143,
   144,145,146,147,148,149,150,151,152,153,154,155,156,157,158,159,
   160,161,162,163,164,165,166,167,168,169,170,171,172,173,174,175,
   176,177,178,179,180,181,182,183,184,185,186,187,188,189,190,191,
   65,65,65,65,65,65,65,67,69,69,69,69,73,73,73,73,
   68,78,79,79,79,79,79,79,85,85,85,85,89,80,66,223,
   97,97,97,97,97,97,97,99,101,101,101,101,105,105,105,105,
   100,110,111,111,111,111,111,111,117,117,117,117,121,112,98,121]

/-- One table lookup `win1252_to_ascii[(unsigned char) c]`: the cast
truncates to a byte, hence the reduction modulo 256. -/
def win1252Map (b : Nat) : Nat :=
  win1252_to_ascii.getD (b % 256) 0

/-- SerialProtocol::removeAccentMarker (frame.cpp lines 65-69): every
byte of the string is replaced by its table entry. -/
def removeAccentMarker (str : List Nat) : List Nat :=
  str.map win1252Map

theorem receiveFrame_received (s : SerialProtocol) (input : List Nat)
    (h : s.machState = RECEIVED) : receiveFrame s input = (s, input) := by
  cases input with
  | nil => rfl
  | cons rc rest => simp [receiveFrame, h]

/-- C3: once the receiver is in the RECEIVED state, feeding any further
bytes is a no-op: no byte is consumed and the state, the write cursor
and the receive buffer are all unchanged. -/
theorem received_state_absorbs (s : SerialProtocol) (input : List Nat)
    (h : s.machState = RECEIVED) : receiveFrame s input = (s, input) :=
  receiveFrame_received s input h

theorem received_state_absorbs_witness :
    receiveFrame { machState := RECEIVED, ndx := 3, receivedChars := fun _ => 7 }
        [97, 98, 99]
      = ({ machState := RECEIVED, ndx := 3, receivedChars := fun _ => 7 }, [97, 98, 99]) :=
  received_state_absorbs _ _ rfl

/-- C6: a start marker received while already RECEIVING resets the write
cursor to 0 and stays in RECEIVING with the buffer untouched, so the
partial frame is abandoned; concretely, feeding the bytes of
"<abc<def>" to a fresh receiver completes with exactly "def" in the
buffer, NUL-terminated. -/
theorem restart_on_new_start_marker :
    (∀ (n : Nat) (buf : Nat → Nat),
        processByte { machState := RECEIVING, ndx := n, receivedChars := buf } 60
          = { machState := RECEIVING, ndx := 0, receivedChars := buf }) ∧
    ((receiveFrame initialProtocol [60, 97, 98, 99, 60, 100, 101, 102, 62]).1.machState
        = RECEIVED ∧
      readBuf (receiveFrame initialProtocol
          [60, 97, 98, 99, 60, 100, 101, 102, 62]).1.receivedChars 3
        = [100, 101, 102] ∧
      (receiveFrame initialProtocol
          [60, 97, 98, 99, 60, 100, 101, 102, 62]).1.receivedChars 3 = 0) := by
  refine ⟨fun n buf => by simp [processByte], ?_, ?_, ?_⟩ <;> decide

/-- C7: in the ESCAPE state a reserved byte is appended literally and
the machine returns to RECEIVING; any other byte is discarded (neither
the escape byte nor this byte reaches the buffer) and the machine
returns to RECEIVING; concretely the bytes of "<a\qb>" decode to "ab". -/
theorem escape_state_behaviour (n : Nat) (buf : Nat → Nat) (b : Nat) :
    ((b = 60 ∨ b = 62 ∨ b = 92) →
        processByte { machState := ESCAPE, ndx := n, receivedChars := buf } b
          = { machState := RECEIVING, ndx := (n + 1) % 256,
              receivedChars := bufWrite buf n b }) ∧
    (b ≠ 60 → b ≠ 62 → b ≠ 92 →
        processByte { machState := ESCAPE, ndx := n, receivedChars := buf } b
          = { machState := RECEIVING, ndx := n, receivedChars := buf }) ∧
    ((receiveFrame initialProtocol [60, 97, 92, 113, 98, 62]).1.machState = RECEIVED ∧
      readBuf (receiveFrame initialProtocol [60, 97, 92, 113, 98, 62]).1.receivedChars 2
        = [97, 98] ∧
      (receiveFrame initialProtocol [60, 97, 92, 113, 98, 62]).1.receivedChars 2 = 0) := by
  refine ⟨?_, ?_, ?_, ?_, ?_⟩
  · intro hb
    simp [processByte]
    rcases hb with h | h | h <;> simp [h]
  · intro h60 h62 h92
    simp [processByte, h60, h62, h92]
  · decide
  · decide
  · decide

theorem escape_state_behaviour_witness :
    (processByte { machState := ESCAPE, ndx := 0, receivedChars := fun _ => 0 } 62
        = { machState := RECEIVING, ndx := 1 % 256,
            receivedChars := bufWrite (fun _ => 0) 0 62 }) ∧
    (processByte { machState := ESCAPE, ndx := 0, receivedChars := fun _ => 0 } 113
        = { machState := RECEIVING, ndx := 0, receivedChars := fun _ => 0 }) :=
  ⟨(escape_state_behaviour 0 (fun _ => 0) 62).1 (Or.inr (Or.inl rfl)),
   (escape_state_behaviour 0 (fun _ => 0) 113).2.1
     (by decide) (by decide) (by decide)⟩

set_option maxRecDepth 40000 in
/-- C2: the code does NOT enforce the receive-buffer bound. Feeding a
start marker followed by 85 ordinary bytes drives the write cursor to
85, beyond capacity − 1 = MAX_PROTOCOL_MESSAGE = 84; with an 86th byte
the code stores into cell 85, past the last valid cell
(`receivedChars` has MAX_PROTOCOL_MESSAGE + 1 = 85 cells, 0..84). -/
theorem receive_cursor_unbounded :
    (receiveFrame initialProtocol (60 :: List.replicate 85 97)).1.ndx = 85 ∧
    MAX_PROTOCOL_MESSAGE < 85 + 1 ∧
    (receiveFrame initialProtocol (60 :: List.replicate 86 97)).1.receivedChars 85 = 97 := by
  refine ⟨by decide, by decide, by decide⟩

theorem sendLoop_length_le (msg : List Nat) (out : List Nat)
    (h : out.length ≤ MAX_PROTOCOL_MESSAGE - 1) :
    (sendLoop out msg).length ≤ MAX_PROTOCOL_MESSAGE - 1 := by
  induction msg generalizing out with
  | nil => simpa [sendLoop] using h
  | cons b rest ih =>
      by_cases hb0 : b = 0
      · simpa [sendLoop, hb0] using h
      · by_cases hfull : MAX_PROTOCOL_MESSAGE - 1 ≤ out.length
        · simpa [sendLoop, hb0, hfull] using h
        · by_cases hres : b = 60 ∨ b = 62 ∨ b = 92
          · by_cases hmid : (out ++ [92]).length = MAX_PROTOCOL_MESSAGE - 1
            · simp only [sendLoop, hb0, hfull, hres, hmid, if_true, if_false,
                if_neg hb0, if_neg hfull, if_pos hres, if_pos hmid]
              exact Nat.le_refl _
            · simp only [sendLoop, if_neg hb0, if_neg hfull, if_pos hres,
                if_neg hmid]
              apply ih
              simp at hmid ⊢
              omega
          · simp only [sendLoop, if_neg hb0, if_neg hfull, if_neg hres]
            apply ih
            simp
            omega

/-- C5: whatever the message, the sender never writes past its buffer
(at most MAX_PROTOCOL_MESSAGE + 1 = 85 bytes are stored), and the final
two bytes stored are always the closing marker and the NUL sentinel. -/
theorem sender_bounded_and_terminated (message : List Nat) :
    (sendFrame message).length ≤ MAX_PROTOCOL_MESSAGE + 1 ∧
    (sendFrame message).drop ((sendFrame message).length - 2) = [62, 0] := by
  have h := sendLoop_length_le message [60]
      (by simp [MAX_PROTOCOL_MESSAGE, MAX_STRING])
  constructor
  · simp only [sendFrame, List.length_append]
    simp [MAX_PROTOCOL_MESSAGE, MAX_STRING] at h ⊢
    omega
  · simp only [sendFrame, List.length_append]
    norm_num

theorem sendLoop_append_of_fits (p : List Nat) (q out : List Nat)
    (h0 : ∀ b ∈ p, b ≠ 0)
    (hfit : out.length + (escapeSpec p).length ≤ MAX_PROTOCOL_MESSAGE - 1) :
    sendLoop out (p ++ q) = sendLoop (out ++ escapeSpec p) q := by
  induction p generalizing out with
  | nil => simp [escapeSpec]
  | cons b rest ih =>
      have hb0 : b ≠ 0 := h0 b (List.mem_cons_self b rest)
      have h0' : ∀ x ∈ rest, x ≠ 0 := fun x hx => h0 x (List.mem_cons_of_mem b hx)
      by_cases hres : b = 60 ∨ b = 62 ∨ b = 92
      · have hlen : (escapeSpec (b :: rest)).length = 2 + (escapeSpec rest).length := by
          simp [escapeSpec, hres]
          omega
        rw [hlen] at hfit
        have hfull : ¬ (MAX_PROTOCOL_MESSAGE - 1 ≤ out.length) := by
          simp [MAX_PROTOCOL_MESSAGE, MAX_STRING] at hfit ⊢
          omega
        have hmid : ¬ ((out ++ [92]).length = MAX_PROTOCOL_MESSAGE - 1) := by
          simp [MAX_PROTOCOL_MESSAGE, MAX_STRING] at hfit ⊢
          omega
        rw [List.cons_append]
        simp only [sendLoop, if_neg hb0, if_neg hfull, if_pos hres, if_neg hmid]
        rw [ih (out ++ [92, b]) h0' (by simp at hfit ⊢; omega)]
        congr 1
        simp [escapeSpec, hres]
      · have hlen : (escapeSpec (b :: rest)).length = 1 + (escapeSpec rest).length := by
          simp [escapeSpec, hres]
          omega
        rw [hlen] at hfit
        have hfull : ¬ (MAX_PROTOCOL_MESSAGE - 1 ≤ out.length) := by
          simp [MAX_PROTOCOL_MESSAGE, MAX_STRING] at hfit ⊢
          omega
        rw [List.cons_append]
        simp only [sendLoop, if_neg hb0, if_neg hfull, if_neg hres]
        rw [ih (out ++ [b]) h0' (by simp at hfit ⊢; omega)]
        congr 1
        simp [escapeSpec, hres]

theorem sendFrame_eq_of_fits (message : List Nat)
    (h0 : ∀ b ∈ message, b ≠ 0)
    (hfit : (escapeSpec message).length ≤ MAX_PROTOCOL_MESSAGE - 2) :
    sendFrame message = 60 :: (escapeSpec message ++ [62, 0]) := by
  have h := sendLoop_append_of_fits message [] [60] h0
      (by simp [MAX_PROTOCOL_MESSAGE, MAX_STRING] at hfit ⊢; omega)
  simp only [List.append_nil] at h
  simp [sendFrame, h, sendLoop]

/-- C4: for every message whose escaped form fits without truncation,
the bytes stored in the send buffer are exactly the opening marker, the
message with each reserved byte preceded by a backslash and every other
byte unchanged, the closing marker, and the NUL sentinel. -/
theorem sender_wire_format (message : List Nat)
    (h0 : ∀ b ∈ message, b ≠ 0)
    (hfit : (escapeSpec message).length ≤ MAX_PROTOCOL_MESSAGE - 2) :
    sendFrame message = 60 :: (escapeSpec message ++ [62, 0]) :=
  sendFrame_eq_of_fits message h0 hfit

theorem sender_wire_format_witness :
    sendFrame [97, 60, 98] = 60 :: (escapeSpec [97, 60, 98] ++ [62, 0]) :=
  sender_wire_format [97, 60, 98] (by decide) (by decide)

set_option maxRecDepth 40000 in
/-- C10: when the sender reaches the output bound right after storing
the escape byte for a reserved message byte, the literal byte is
omitted, the dangling escape byte stays, and the stored frame ends with
a backslash, the closing marker and the NUL sentinel. -/
theorem sender_truncation_mid_escape (p : List Nat) (b : Nat) (rest : List Nat)
    (h0 : ∀ x ∈ p, x ≠ 0)
    (hres : b = 60 ∨ b = 62 ∨ b = 92)
    (hlen : (escapeSpec p).length = MAX_PROTOCOL_MESSAGE - 3) :
    sendFrame (p ++ b :: rest) = 60 :: (escapeSpec p ++ [92, 62, 0]) := by
  have hb0 : b ≠ 0 := by rcases hres with h | h | h <;> simp [h]
  have h := sendLoop_append_of_fits p (b :: rest) [60] h0
      (by simp [MAX_PROTOCOL_MESSAGE, MAX_STRING] at hlen ⊢; omega)
  have hlen81 : (escapeSpec p).length = 81 := by
    simpa [MAX_PROTOCOL_MESSAGE, MAX_STRING] using hlen
  rw [sendFrame, h]
  simp [sendLoop, hb0, hres, hlen81, MAX_PROTOCOL_MESSAGE, MAX_STRING]

theorem sender_truncation_mid_escape_witness :
    sendFrame (List.replicate 81 97 ++ [62])
      = 60 :: (escapeSpec (List.replicate 81 97) ++ [92, 62, 0]) :=
  sender_truncation_mid_escape (List.replicate 81 97) 62 []
    (by decide) (by decide) (by decide)

/-- Successive stores of the bytes of `l` at cells `n, n+1, ...`. -/
def bufWriteList : (Nat → Nat) → Nat → List Nat → (Nat → Nat)
  | buf, _, [] => buf
  | buf, n, b :: rest => bufWriteList (bufWrite buf n b) (n + 1) rest

theorem bufWriteList_lt (l : List Nat) (buf : Nat → Nat) (n j : Nat) (h : j < n) :
    bufWriteList buf n l j = buf j := by
  induction l generalizing buf n with
  | nil => rfl
  | cons b rest ih =>
      rw [bufWriteList, ih _ _ (Nat.lt_succ_of_lt h)]
      simp [bufWrite, Nat.ne_of_lt h]

theorem bufWriteList_get (l : List Nat) (buf : Nat → Nat) (n k : Nat)
    (h : k < l.length) :
    bufWriteList buf n l (n + k) = l[k] := by
  induction l generalizing buf n k with
  | nil => simp at h
  | cons b rest ih =>
      cases k with
      | zero =>
          have hlt := bufWriteList_lt rest (bufWrite buf n b) (n + 1) n
            (Nat.lt_succ_self n)
          simp [bufWriteList, hlt, bufWrite]
      | succ k =>
          rw [bufWriteList, show n + (k + 1) = (n + 1) + k by omega,
            ih (bufWrite buf n b) (n + 1) k (by simpa using h)]
          simp

theorem receiveFrame_cons_not_received (s : SerialProtocol) (rc : Nat)
    (r : List Nat) (h : s.machState ≠ RECEIVED) :
    receiveFrame s (rc :: r) = receiveFrame (processByte s rc) r := by
  simp [receiveFrame, h]

theorem receiveFrame_escaped_payload (msg : List Nat) (n : Nat) (buf : Nat → Nat)
    (rest : List Nat) (hn : n + msg.length ≤ 255) :
    receiveFrame { machState := RECEIVING, ndx := n, receivedChars := buf }
        (escapeSpec msg ++ rest)
      = receiveFrame
          { machState := RECEIVING, ndx := n + msg.length,
            receivedChars := bufWriteList buf n msg } rest := by
  induction msg generalizing n buf with
  | nil => simp [escapeSpec, bufWriteList]
  | cons b t ih =>
      have hmod : (n + 1) % 256 = n + 1 := by
        apply Nat.mod_eq_of_lt
        simp at hn
        omega
      have hn' : (n + 1) + t.length ≤ 255 := by
        simp at hn
        omega
      have hgoalarith : n + (b :: t).length = (n + 1) + t.length := by
        simp
        omega
      by_cases hres : b = 60 ∨ b = 62 ∨ b = 92
      · have hsplit : escapeSpec (b :: t) ++ rest = 92 :: b :: (escapeSpec t ++ rest) := by
          simp [escapeSpec, hres]
        rw [hsplit, receiveFrame_cons_not_received _ _ _ (by simp)]
        have h92 : processByte
            { machState := RECEIVING, ndx := n, receivedChars := buf } 92
            = { machState := ESCAPE, ndx := n, receivedChars := buf } := by
          simp [processByte]
        rw [h92, receiveFrame_cons_not_received _ _ _ (by simp)]
        have hb : processByte
            { machState := ESCAPE, ndx := n, receivedChars := buf } b
            = { machState := RECEIVING, ndx := n + 1,
                receivedChars := bufWrite buf n b } := by
          rcases hres with h | h | h <;> subst h <;> simp [processByte, hmod]
        rw [hb, ih (n + 1) (bufWrite buf n b) hn', hgoalarith, bufWriteList]
      · push_neg at hres
        obtain ⟨h60, h62, h92⟩ := hres
        have hsplit : escapeSpec (b :: t) ++ rest = b :: (escapeSpec t ++ rest) := by
          simp [escapeSpec, h60, h62, h92]
        rw [hsplit, receiveFrame_cons_not_received _ _ _ (by simp)]
        have hb : processByte
            { machState := RECEIVING, ndx := n, receivedChars := buf } b
            = { machState := RECEIVING, ndx := n + 1,
                receivedChars := bufWrite buf n b } := by
          simp [processByte, h60, h62, h92, hmod]
        rw [hb, ih (n + 1) (bufWrite buf n b) hn', hgoalarith, bufWriteList]

theorem escapeSpec_length_ge (msg : List Nat) :
    msg.length ≤ (escapeSpec msg).length := by
  induction msg with
  | nil => simp [escapeSpec]
  | cons b t ih =>
      by_cases hres : b = 60 ∨ b = 62 ∨ b = 92 <;>
        simp [escapeSpec, hres] <;> omega

theorem escapeSpec_ne_zero (msg : List Nat) (h0 : ∀ b ∈ msg, b ≠ 0) :
    ∀ b ∈ escapeSpec msg, b ≠ 0 := by
  induction msg with
  | nil => simp [escapeSpec]
  | cons b t ih =>
      have hb := h0 b (List.mem_cons_self b t)
      have ht : ∀ x ∈ t, x ≠ 0 := fun x hx => h0 x (List.mem_cons_of_mem b hx)
      intro x hx
      by_cases hres : b = 60 ∨ b = 62 ∨ b = 92 <;>
        simp [escapeSpec, hres] at hx
      · rcases hx with h | h | h
        · omega
        · subst h; exact hb
        · exact ih ht x h
      · rcases hx with h | h
        · subst h; exact hb
        · exact ih ht x h

theorem takeWhile_ne_zero_append (l : List Nat) (h : ∀ b ∈ l, b ≠ 0) :
    (l ++ [0]).takeWhile (fun b => b ≠ 0) = l := by
  induction l with
  | nil => simp
  | cons b t ih =>
      have hb := h b (List.mem_cons_self b t)
      have ht : ∀ x ∈ t, x ≠ 0 := fun x hx => h x (List.mem_cons_of_mem b hx)
      rw [List.cons_append, List.takeWhile_cons_of_pos (by simp [hb]), ih ht]

theorem transmit_eq_of_fits (message : List Nat)
    (h0 : ∀ b ∈ message, b ≠ 0)
    (hfit : (escapeSpec message).length ≤ MAX_PROTOCOL_MESSAGE - 2) :
    transmit message = 60 :: (escapeSpec message ++ [62]) := by
  rw [transmit, sendFrame_eq_of_fits message h0 hfit,
    show (60 :: (escapeSpec message ++ [62, 0]))
        = (60 :: (escapeSpec message ++ [62])) ++ [0] by simp]
  apply takeWhile_ne_zero_append
  intro b hb
  simp at hb
  rcases hb with h | h | h
  · omega
  · exact escapeSpec_ne_zero message h0 b h
  · omega

theorem readBuf_eq_of_pointwise (f : Nat → Nat) (l : List Nat)
    (h : ∀ (k : Nat) (hk : k < l.length), f k = l[k]) :
    readBuf f l.length = l := by
  apply List.ext_getElem
  · simp [readBuf]
  · intro k h1 h2
    simp only [readBuf, List.getElem_map, List.getElem_range]
    exact h k h2

/-- C1: round trip. For every payload (a NUL-free byte string) whose
escaped encoding fits in the send buffer without truncation, feeding
the transmitted frame bytes into a fresh receiver completes the frame,
the receive buffer holds exactly the payload, and the buffer cell after
it holds the NUL terminator. -/
theorem round_trip (message : List Nat)
    (h0 : ∀ b ∈ message, b ≠ 0)
    (hfit : (escapeSpec message).length ≤ MAX_PROTOCOL_MESSAGE - 2) :
    (receiveFrame initialProtocol (transmit message)).1.machState = RECEIVED ∧
    readBuf (receiveFrame initialProtocol (transmit message)).1.receivedChars
        message.length = message ∧
    (receiveFrame initialProtocol (transmit message)).1.receivedChars
        message.length = 0 := by
  have hlen : message.length ≤ 82 := by
    have h1 := escapeSpec_length_ge message
    simp [MAX_PROTOCOL_MESSAGE, MAX_STRING] at hfit
    omega
  rw [transmit_eq_of_fits message h0 hfit,
    receiveFrame_cons_not_received _ _ _ (by simp [initialProtocol])]
  have hstep : processByte initialProtocol 60
      = { machState := RECEIVING, ndx := 0, receivedChars := fun _ => 0 } := by
    simp [processByte, initialProtocol]
  rw [hstep, receiveFrame_escaped_payload message 0 _ [62] (by omega)]
  rw [receiveFrame_cons_not_received _ _ _ (by simp)]
  have hstep2 : processByte
      { machState := RECEIVING, ndx := 0 + message.length,
        receivedChars := bufWriteList (fun _ => 0) 0 message } 62
      = { machState := RECEIVED, ndx := 0,
          receivedChars := bufWrite (bufWriteList (fun _ => 0) 0 message)
            (0 + message.length) 0 } := by
    simp [processByte]
  rw [hstep2, receiveFrame]
  refine ⟨rfl, ?_, ?_⟩
  · apply readBuf_eq_of_pointwise
    intro k hk
    have hw := bufWriteList_get message (fun _ => 0) 0 k hk
    simp only [Nat.zero_add] at hw
    have hk_ne : ¬ (k = 0 + message.length) := by omega
    simp only [bufWrite, if_neg hk_ne]
    exact hw
  · simp [bufWrite]

theorem round_trip_witness :
    (receiveFrame initialProtocol (transmit [97, 60, 98])).1.machState = RECEIVED ∧
    readBuf (receiveFrame initialProtocol (transmit [97, 60, 98])).1.receivedChars
        ([97, 60, 98] : List Nat).length = [97, 60, 98] ∧
    (receiveFrame initialProtocol (transmit [97, 60, 98])).1.receivedChars
        ([97, 60, 98] : List Nat).length = 0 :=
  round_trip [97, 60, 98] (by decide) (by decide)

theorem receiveFrame_split (l1 l2 : List Nat) (s : SerialProtocol) :
    receiveFrame s (l1 ++ l2)
      = receiveFrame (receiveFrame s l1).1 ((receiveFrame s l1).2 ++ l2) := by
  induction l1 generalizing s with
  | nil => simp [receiveFrame]
  | cons b t ih =>
      by_cases h : s.machState = RECEIVED
      · rw [List.cons_append, receiveFrame_received s (b :: (t ++ l2)) h,
          receiveFrame_received s (b :: t) h]
        simp [receiveFrame_received s (b :: (t ++ l2)) h]
      · rw [List.cons_append, receiveFrame_cons_not_received s b (t ++ l2) h,
          receiveFrame_cons_not_received s b t h]
        exact ih (processByte s b)

theorem receiveFrame_leftover (l : List Nat) (s : SerialProtocol) :
    (receiveFrame s l).2 = [] ∨ (receiveFrame s l).1.machState = RECEIVED := by
  induction l generalizing s with
  | nil => left; rfl
  | cons b t ih =>
      by_cases h : s.machState = RECEIVED
      · right
        rw [receiveFrame_received s (b :: t) h]
        exact h
      · rw [receiveFrame_cons_not_received s b t h]
        exact ih (processByte s b)

theorem feedChunks_eq_receiveFrame (cs : List (List Nat)) (s : SerialProtocol)
    (pending : List Nat) (h : pending = [] ∨ s.machState = RECEIVED) :
    feedChunks s pending cs = receiveFrame s (pending ++ cs.flatten) := by
  induction cs generalizing s pending with
  | nil =>
      rcases h with h | h
      · subst h
        simp [feedChunks, receiveFrame]
      · rw [List.flatten_nil, List.append_nil, feedChunks,
          receiveFrame_received s pending h]
  | cons c cs ih =>
      rw [feedChunks, ih _ _ (receiveFrame_leftover (pending ++ c) s),
        List.flatten_cons,
        show pending ++ (c ++ cs.flatten) = (pending ++ c) ++ cs.flatten by simp,
        receiveFrame_split (pending ++ c) cs.flatten s]

/-- C8: chunk-size independence. Feeding the transmitted encoding of a
payload to a fresh receiver in any number of consecutive chunks, one
`receiveFrame` invocation per chunk, produces exactly the same final
state (machine state, cursor, buffer contents) and leftover bytes as
feeding the whole byte sequence in a single invocation. -/
theorem chunking_independence (message : List Nat) (chunks : List (List Nat))
    (h : chunks.flatten = transmit message) :
    feedChunks initialProtocol [] chunks
      = receiveFrame initialProtocol (transmit message) := by
  rw [← h]
  simpa using
    feedChunks_eq_receiveFrame chunks initialProtocol [] (Or.inl rfl)

theorem chunking_independence_witness :
    feedChunks initialProtocol [] [[60, 97], [92], [60, 98, 62]]
      = receiveFrame initialProtocol (transmit [97, 60, 98]) :=
  chunking_independence [97, 60, 98] [[60, 97], [92], [60, 98, 62]] (by decide)

theorem win1252Map_reduce (b : Nat) : win1252Map b = win1252Map (b % 256) := by
  simp [win1252Map, Nat.mod_mod_of_dvd]

set_option maxRecDepth 20000 in
theorem win1252Map_lt_aux : ∀ b < 256, win1252Map b < 256 := by decide

set_option maxRecDepth 20000 in
theorem win1252Map_idem_aux : ∀ b < 256, win1252Map (win1252Map b) = win1252Map b := by
  decide

set_option maxRecDepth 20000 in
theorem win1252Map_id_below_aux : ∀ b < 128, win1252Map b = b := by decide

theorem win1252Map_idem (b : Nat) :
    win1252Map (win1252Map b) = win1252Map b := by
  rw [win1252Map_reduce b]
  exact win1252Map_idem_aux (b % 256) (Nat.mod_lt b (by norm_num))

theorem removeAccentMarker_idem (s : List Nat) :
    removeAccentMarker (removeAccentMarker s) = removeAccentMarker s := by
  induction s with
  | nil => rfl
  | cons b t ih =>
      simp only [removeAccentMarker, List.map_cons] at ih ⊢
      rw [win1252Map_idem b, ih]

set_option maxRecDepth 20000 in
/-- C9: the transliteration table is total (256 entries, one output byte
for each of the 256 possible input bytes) and idempotent (applying the
table twice equals applying it once, for single bytes and hence for
whole strings), and every byte below 0x80 maps to itself. -/
theorem transliteration_total_idempotent :
    win1252_to_ascii.length = 256 ∧
    (∀ b : Nat, win1252Map b < 256) ∧
    (∀ b : Nat, b < 128 → win1252Map b = b) ∧
    (∀ b : Nat, win1252Map (win1252Map b) = win1252Map b) ∧
    (∀ s : List Nat,
      removeAccentMarker (removeAccentMarker s) = removeAccentMarker s) := by
  refine ⟨by decide, ?_, ?_, win1252Map_idem, removeAccentMarker_idem⟩
  · intro b
    rw [win1252Map_reduce b]
    exact win1252Map_lt_aux (b % 256) (Nat.mod_lt b (by norm_num))
  · intro b hb
    exact win1252Map_id_below_aux b hb

theorem transliteration_total_idempotent_witness :
    win1252Map 65 = 65 ∧ win1252Map (win1252Map 233) = win1252Map 233 :=
  ⟨transliteration_total_idempotent.2.2.1 65 (by decide),
   transliteration_total_idempotent.2.2.2.1 233⟩
